import Mathlib

/-!
Verification of the ranking/comparison engine of the Apgujeong rank app
(src/app.py) against its natural-language specification.

The data model is a shallow embedding of the cleaned, numerically coerced
pandas DataFrame `df_num`: each row carries the identifying key
(구역 zone, 단지명 complex name, 동 dong, 호 ho) and a map from year columns to
an optional valuation.  Missing valuations (NaN) are `none`; float
valuations are modelled as rationals.
-/

namespace Apgujeong

/-- Model of one cleaned data row of `df_num`: identifying key plus the
per-year valuation cells (`none` = NaN). -/
structure Row where
  zone : String
  complexName : String
  dong : Int
  ho : Int
  vals : Nat → Option ℚ

/-- Model of the cleaned table `df_num` together with its year-named columns. -/
structure Table where
  rows : List Row
  cols : List Nat

/-- Model of the 4-key row mask
`(df["구역"]==zone) & (df["단지명"]==complex) & (df["동"]==dong) & (df["호"]==ho)`. -/
def keyMatch (zone complexName : String) (dong ho : Int) (r : Row) : Bool :=
  r.zone == zone && r.complexName == complexName && r.dong == dong && r.ho == ho

/-- Valuations present (non-NaN) in a row pool for a given year column. -/
def presentVals (pool : List Row) (y : Nat) : List ℚ :=
  pool.filterMap (fun r => r.vals y)

/-- Number of rows of a pool with a non-missing valuation in year `y`. -/
def nonMissingCount (pool : List Row) (y : Nat) : Nat :=
  (presentVals pool y).length

/-- Model of the value pandas `Series.rank(method="min", ascending=False)`
assigns to a non-missing valuation `v` inside a pool: one plus the number of
strictly larger non-missing valuations (competition/min rank, descending). -/
def rankVal (pool : List Row) (y : Nat) (v : ℚ) : Nat :=
  1 + (presentVals pool y).countP (fun w => decide (v < w))

/-- Rank of a row in a pool for year `y`: `none` when its valuation is
missing (pandas assigns NaN rank to NaN cells). -/
def rankOf (pool : List Row) (y : Nat) (r : Row) : Option Nat :=
  (r.vals y).map (rankVal pool y)

/-- Counting helper for the rank-gap law: when `w < v` and no present value
lies strictly between them, the values above `w` are exactly the values above
`v` plus the tie group at `v`. -/
theorem countP_gap (vs : List ℚ) (v w : ℚ) (hwv : w < v)
    (hmid : ∀ u ∈ vs, ¬(w < u ∧ u < v)) :
    vs.countP (fun u => decide (w < u)) =
      vs.countP (fun u => decide (v < u)) + vs.count v := by
  induction vs with
  | nil => simp
  | cons x xs ih =>
    have hx := hmid x (List.mem_cons_self x xs)
    have ih2 := ih (fun u hu => hmid u (List.mem_cons_of_mem x hu))
    simp only [List.countP_cons, List.count_cons, ih2]
    rcases lt_trichotomy x v with h | h | h
    · have h1 : ¬(w < x) := fun hwx => hx ⟨hwx, h⟩
      have h2 : ¬(v < x) := not_lt_of_gt h
      have h3 : ¬(x == v) = true := by simp [ne_of_lt h]
      simp [h1, h2, h3]
    · subst h
      have h1 : w < x := hwv
      have h2 : ¬(x < x) := lt_irrefl x
      simp [h1, h2]
      omega
    · have h1 : w < x := lt_trans hwv h
      have h2 : v < x := h
      have h3 : ¬(x == v) = true := by simp [ne_of_gt h]
      simp [h1, h2, h3]
      omega

/-- C1: for every pool (zone-local or global) and every year, the Rank
Engine assigns competition (min) ranks over the non-missing valuations of
that year in descending order: a strictly larger valuation gets a rank that
is no larger; equal valuations get equal ranks; and directly below a tie
group at value `v`, the next distinct present value gets the rank of `v`
plus the size of the tie group at `v`. -/
theorem rank_min_desc_spec (pool : List Row) (y : Nat) :
    (∀ a ∈ pool, ∀ b ∈ pool, ∀ va vb : ℚ,
      a.vals y = some va → b.vals y = some vb →
        ((vb < va → rankVal pool y va ≤ rankVal pool y vb) ∧
         (va = vb → rankVal pool y va = rankVal pool y vb))) ∧
    (∀ v w : ℚ, v ∈ presentVals pool y → w ∈ presentVals pool y → w < v →
      (∀ u ∈ presentVals pool y, ¬(w < u ∧ u < v)) →
        rankVal pool y w = rankVal pool y v + (presentVals pool y).count v) := by
  constructor
  · intro a _ b _ va vb _ _
    constructor
    · intro hlt
      unfold rankVal
      have : (presentVals pool y).countP (fun u => decide (va < u)) ≤
          (presentVals pool y).countP (fun u => decide (vb < u)) := by
        apply List.countP_mono_left
        intro x _ hx
        have hax : va < x := of_decide_eq_true hx
        exact decide_eq_true (lt_trans hlt hax)
      omega
    · intro he
      rw [he]
  · intro v w _ _ hwv hmid
    unfold rankVal
    rw [countP_gap (presentVals pool y) v w hwv hmid]
    omega

/-- Pool realizing the specification example: four rows of one zone with
2016 valuations 10.0, 10.0, 8.0, 6.0. -/
def c1pool : List Row :=
  [⟨"A", "C1", 1, 101, fun y => if y = 2016 then some 10 else none⟩,
   ⟨"A", "C2", 2, 102, fun y => if y = 2016 then some 10 else none⟩,
   ⟨"A", "C3", 3, 103, fun y => if y = 2016 then some 8 else none⟩,
   ⟨"A", "C4", 4, 104, fun y => if y = 2016 then some 6 else none⟩]

/-- Witness for C1 at the example pool: valuations [10, 10, 8, 6] receive
ranks [1, 1, 3, 4], and the gap law instantiated at v = 10, w = 8 gives
rank 8 = rank 10 + tie-group size. -/
theorem rank_min_desc_spec_witness :
    (rankVal c1pool 2016 10 = 1 ∧ rankVal c1pool 2016 8 = 3 ∧
      rankVal c1pool 2016 6 = 4) ∧
    rankVal c1pool 2016 8 = rankVal c1pool 2016 10 + (presentVals c1pool 2016).count 10 :=
  ⟨by decide,
   (rank_min_desc_spec c1pool 2016).2 10 8 (by decide) (by decide) (by decide)
     (by decide)⟩

/-! ### Rank text formatting and parsing (`_fmt_rank` / `_parse_rank_text`) -/

/-- Decimal digit to its ASCII character. -/
def digitChar : Nat → Char
  | 0 => '0'
  | 1 => '1'
  | 2 => '2'
  | 3 => '3'
  | 4 => '4'
  | 5 => '5'
  | 6 => '6'
  | 7 => '7'
  | 8 => '8'
  | _ => '9'

/-- ASCII digit character back to its value. -/
def charVal (c : Char) : Nat := c.toNat - 48

/-- Little-endian decimal digits of `n` (empty for 0), with explicit fuel so
that the kernel can evaluate it. -/
def toDigitsRevAux : Nat → Nat → List Nat
  | 0, _ => []
  | fuel + 1, n => if n = 0 then [] else n % 10 :: toDigitsRevAux fuel (n / 10)

/-- Little-endian decimal digits of `n` (empty for 0). -/
def toDigitsRev (n : Nat) : List Nat := toDigitsRevAux n n

/-- Value of a little-endian digit list. -/
def ofDigitsRev : List Nat → Nat
  | [] => 0
  | d :: ds => d + 10 * ofDigitsRev ds

/-- Little-endian character rendering of a digit list with a thousands
separator between each group of three digits, as in Python format `:,`. -/
def commaGroupRev : List Nat → Nat → List Char
  | [], _ => []
  | d :: rest, k =>
    if k = 3 then ',' :: digitChar d :: commaGroupRev rest 1
    else digitChar d :: commaGroupRev rest (k + 1)

/-- Model of the Python expression `f"{n:,}"` for a natural number `n`:
decimal digits grouped by 3 with commas. -/
def natToCommaChars (n : Nat) : List Char :=
  if n = 0 then ['0'] else (commaGroupRev (toDigitsRev n) 0).reverse

/-- Model of `_fmt_rank(rank, total)` (src/app.py:599): empty text when
either side is missing (NA), else `f"{int(rank):,}/{int(total):,}"`.  The
Python string is modelled as its character list. -/
def fmt_rank : Option Nat → Option Nat → List Char
  | some r, some t => natToCommaChars r ++ '/' :: natToCommaChars t
  | _, _ => []

/-- Model of Python `str.strip()` on a character list. -/
def trimChars (cs : List Char) : List Char :=
  ((cs.dropWhile Char.isWhitespace).reverse.dropWhile Char.isWhitespace).reverse

/-- Model of Python `int(s)` on a string of decimal digits: any non-digit
character (or empty input) raises, i.e. yields `none`. -/
def parseNatDigits (cs : List Char) : Option Nat :=
  if cs = [] then none
  else if cs.all Char.isDigit then some (ofDigitsRev (cs.reverse.map charVal))
  else none

/-- Model of Python `int(s)` including an optional leading minus sign. -/
def parseIntChars (cs : List Char) : Option Int :=
  match cs with
  | [] => none
  | c :: rest =>
    if c = '-' then (parseNatDigits rest).map (fun m => -(m : Int))
    else (parseNatDigits (c :: rest)).map (fun m => (m : Int))

/-- Model of `_parse_rank_text` (src/app.py:605): `None`/NaN input gives no
rank; otherwise strip, return no rank on empty text, else take the part
before the first slash, drop commas, strip again and parse as an integer,
with parse failure giving no rank. -/
def parse_rank_text : Option (List Char) → Option Int
  | none => none
  | some s =>
    let txt := trimChars s
    if txt = [] then none
    else
      parseIntChars
        (trimChars ((txt.takeWhile (fun c => !(c == '/'))).filter (fun c => !(c == ','))))

theorem ofDigitsRev_toDigitsRevAux :
    ∀ fuel n, n ≤ fuel → ofDigitsRev (toDigitsRevAux fuel n) = n := by
  intro fuel
  induction fuel with
  | zero => intro n hn; interval_cases n; rfl
  | succ fuel ih =>
    intro n hn
    by_cases h0 : n = 0
    · simp [toDigitsRevAux, h0, ofDigitsRev]
    · have hdiv : n / 10 ≤ fuel := by
        have : n / 10 < n := Nat.div_lt_self (Nat.pos_of_ne_zero h0) (by omega)
        omega
      simp only [toDigitsRevAux, h0, if_false, ofDigitsRev, ih (n / 10) hdiv]
      omega

theorem ofDigitsRev_toDigitsRev (n : Nat) : ofDigitsRev (toDigitsRev n) = n :=
  ofDigitsRev_toDigitsRevAux n n (le_refl n)

theorem toDigitsRevAux_lt_ten :
    ∀ fuel n, ∀ d ∈ toDigitsRevAux fuel n, d < 10 := by
  intro fuel
  induction fuel with
  | zero => intro n d hd; simp [toDigitsRevAux] at hd
  | succ fuel ih =>
    intro n d hd
    by_cases h0 : n = 0
    · simp [toDigitsRevAux, h0] at hd
    · simp only [toDigitsRevAux, h0, if_false, List.mem_cons] at hd
      rcases hd with h | h
      · subst h; exact Nat.mod_lt n (by omega)
      · exact ih (n / 10) d h

theorem toDigitsRev_lt_ten (n : Nat) : ∀ d ∈ toDigitsRev n, d < 10 :=
  toDigitsRevAux_lt_ten n n

theorem toDigitsRev_ne_nil (n : Nat) (hn : 1 ≤ n) : toDigitsRev n ≠ [] := by
  unfold toDigitsRev
  cases n with
  | zero => omega
  | succ m => simp [toDigitsRevAux]

theorem digitChar_props (d : Nat) (h : d < 10) :
    (digitChar d).isDigit = true ∧ charVal (digitChar d) = d ∧
    (digitChar d).isWhitespace = false ∧ ((digitChar d) == '/') = false ∧
    ((digitChar d) == ',') = false ∧ digitChar d ≠ '-' := by
  interval_cases d <;> exact ⟨by decide, by decide, by decide, by decide, by decide, by decide⟩

theorem mem_commaGroupRev {c : Char} :
    ∀ (ds : List Nat) (k : Nat), c ∈ commaGroupRev ds k →
      (∃ d ∈ ds, c = digitChar d) ∨ c = ',' := by
  intro ds
  induction ds with
  | nil => intro k hc; simp [commaGroupRev] at hc
  | cons d rest ih =>
    intro k hc
    by_cases hk : k = 3
    · simp only [commaGroupRev, hk, if_pos, List.mem_cons] at hc
      rcases hc with h | h | h
      · exact Or.inr h
      · exact Or.inl ⟨d, List.mem_cons_self d rest, h⟩
      · rcases ih 1 h with ⟨d2, hd2, he⟩ | h2
        · exact Or.inl ⟨d2, List.mem_cons_of_mem d hd2, he⟩
        · exact Or.inr h2
    · simp only [commaGroupRev, hk, if_neg, if_false, List.mem_cons] at hc
      rcases hc with h | h
      · exact Or.inl ⟨d, List.mem_cons_self d rest, h⟩
      · rcases ih (k + 1) h with ⟨d2, hd2, he⟩ | h2
        · exact Or.inl ⟨d2, List.mem_cons_of_mem d hd2, he⟩
        · exact Or.inr h2

theorem mem_natToCommaChars {c : Char} {n : Nat} (hc : c ∈ natToCommaChars n) :
    (∃ d, d < 10 ∧ c = digitChar d) ∨ c = ',' := by
  unfold natToCommaChars at hc
  by_cases h0 : n = 0
  · rw [if_pos h0] at hc
    simp at hc
    exact Or.inl ⟨0, by omega, by rw [hc]; rfl⟩
  · rw [if_neg h0, List.mem_reverse] at hc
    rcases mem_commaGroupRev _ _ hc with ⟨d, hd, he⟩ | h
    · exact Or.inl ⟨d, toDigitsRev_lt_ten n d hd, he⟩
    · exact Or.inr h

theorem natToCommaChars_not_ws {n : Nat} : ∀ c ∈ natToCommaChars n, c.isWhitespace = false := by
  intro c hc
  rcases mem_natToCommaChars hc with ⟨d, hd, he⟩ | he
  · rw [he]; exact (digitChar_props d hd).2.2.1
  · rw [he]; decide

theorem natToCommaChars_ne_slash {n : Nat} : ∀ c ∈ natToCommaChars n, (c == '/') = false := by
  intro c hc
  rcases mem_natToCommaChars hc with ⟨d, hd, he⟩ | he
  · rw [he]; exact (digitChar_props d hd).2.2.2.1
  · rw [he]; decide

theorem commaGroupRev_ne_nil {ds : List Nat} (h : ds ≠ []) (k : Nat) :
    commaGroupRev ds k ≠ [] := by
  cases ds with
  | nil => exact absurd rfl h
  | cons d rest =>
    by_cases hk : k = 3 <;> simp [commaGroupRev, hk]

theorem natToCommaChars_ne_nil (n : Nat) : natToCommaChars n ≠ [] := by
  unfold natToCommaChars
  by_cases h0 : n = 0
  · simp [h0]
  · rw [if_neg h0]
    simp only [ne_eq, List.reverse_eq_nil_iff]
    exact commaGroupRev_ne_nil (toDigitsRev_ne_nil n (by omega)) 0

theorem dropWhile_eq_self_of {p : Char → Bool} :
    ∀ {l : List Char}, (∀ c ∈ l, p c = false) → l.dropWhile p = l := by
  intro l h
  cases l with
  | nil => rfl
  | cons x xs => simp [List.dropWhile_cons, h x (List.mem_cons_self x xs)]

theorem trimChars_eq_self {l : List Char} (h : ∀ c ∈ l, c.isWhitespace = false) :
    trimChars l = l := by
  unfold trimChars
  rw [dropWhile_eq_self_of h,
    dropWhile_eq_self_of (fun c hc => h c (List.mem_reverse.mp hc)), List.reverse_reverse]

theorem takeWhile_append_of {p : Char → Bool} (x : Char) (B : List Char) (hx : p x = false) :
    ∀ A : List Char, (∀ c ∈ A, p c = true) → (A ++ x :: B).takeWhile p = A := by
  intro A
  induction A with
  | nil => intro _; simp [List.takeWhile_cons, hx]
  | cons a as ih =>
    intro h
    simp only [List.cons_append, List.takeWhile_cons, h a (List.mem_cons_self a as), if_true,
      List.cons.injEq, true_and]
    exact ih (fun c hc => h c (List.mem_cons_of_mem a hc))

theorem filter_commaGroupRev :
    ∀ (ds : List Nat) (k : Nat), (∀ d ∈ ds, d < 10) →
      (commaGroupRev ds k).filter (fun c => !(c == ',')) = ds.map digitChar := by
  intro ds
  induction ds with
  | nil => intro k _; rfl
  | cons d rest ih =>
    intro k hds
    have hd10 : d < 10 := hds d (List.mem_cons_self d rest)
    have hrest : ∀ x ∈ rest, x < 10 := fun x hx => hds x (List.mem_cons_of_mem d hx)
    have hdig : ((digitChar d) == ',') = false := (digitChar_props d hd10).2.2.2.2.1
    by_cases hk : k = 3
    · simp only [commaGroupRev, hk, if_pos, List.filter_cons, hdig]
      simp only [show ((',' : Char) == ',') = true from rfl, Bool.not_true, Bool.not_false,
        if_neg, if_pos, ih 1 hrest, List.map_cons]
      simp
    · simp only [commaGroupRev, hk, if_neg, if_false, List.filter_cons, hdig, Bool.not_false,
        if_pos, ih (k + 1) hrest, List.map_cons]

theorem map_charVal_digitChar :
    ∀ ds : List Nat, (∀ d ∈ ds, d < 10) → (ds.map digitChar).map charVal = ds := by
  intro ds
  induction ds with
  | nil => intro _; rfl
  | cons d rest ih =>
    intro h
    simp only [List.map_cons, List.cons.injEq]
    exact ⟨(digitChar_props d (h d (List.mem_cons_self d rest))).2.1,
      ih (fun x hx => h x (List.mem_cons_of_mem d hx))⟩

theorem all_isDigit_map_digitChar {ds : List Nat} (h : ∀ d ∈ ds, d < 10) :
    (ds.map digitChar).all Char.isDigit = true := by
  rw [List.all_eq_true]
  intro c hc
  rcases List.mem_map.mp hc with ⟨d, hd, he⟩
  rw [← he]
  exact (digitChar_props d (h d hd)).1

/-- C10: formatting then parsing a rank string round-trips: for every rank
r ≥ 1 and pool size n ≥ 1 (both non-missing), parsing the rendered
"rank/pool" text, thousands-separator commas included, returns exactly r;
parsing empty or missing rank text returns no rank. -/
theorem fmt_parse_round_trip (r n : Nat) (hr : 1 ≤ r) (hn : 1 ≤ n) :
    parse_rank_text (some (fmt_rank (some r) (some n))) = some (r : Int) ∧
    parse_rank_text (some []) = none ∧ parse_rank_text none = none := by
  refine ⟨?_, rfl, rfl⟩
  have hA := natToCommaChars_not_ws (n := r)
  have hB := natToCommaChars_not_ws (n := n)
  have hws : ∀ c ∈ fmt_rank (some r) (some n), c.isWhitespace = false := by
    intro c hc
    simp only [fmt_rank, List.mem_append, List.mem_cons] at hc
    rcases hc with h | h | h
    · exact hA c h
    · rw [h]; decide
    · exact hB c h
  have heq : ∀ s : List Char, parse_rank_text (some s) =
      (let txt := trimChars s;
       if txt = [] then none
       else
         parseIntChars
           (trimChars ((txt.takeWhile (fun c => !(c == '/'))).filter (fun c => !(c == ','))))) :=
    fun s => rfl
  rw [heq]
  simp only []
  rw [trimChars_eq_self hws]
  have hnonnil : fmt_rank (some r) (some n) ≠ [] := by
    simp only [fmt_rank, ne_eq, List.append_eq_nil, List.cons_ne_self]
    intro hand
    exact natToCommaChars_ne_nil r hand.1
  rw [if_neg hnonnil]
  have htake : (fmt_rank (some r) (some n)).takeWhile (fun c => !(c == '/')) =
      natToCommaChars r := by
    unfold fmt_rank
    exact takeWhile_append_of '/' (natToCommaChars n) (by decide) (natToCommaChars r)
      (fun c hc => by rw [natToCommaChars_ne_slash c hc]; rfl)
  rw [htake]
  have hr0 : r ≠ 0 := by omega
  have hfilter : (natToCommaChars r).filter (fun c => !(c == ',')) =
      (toDigitsRev r).reverse.map digitChar := by
    unfold natToCommaChars
    rw [if_neg hr0, List.filter_reverse,
      filter_commaGroupRev (toDigitsRev r) 0 (toDigitsRev_lt_ten r), List.map_reverse]
  rw [hfilter]
  have hlt := toDigitsRev_lt_ten r
  have hltrev : ∀ d ∈ (toDigitsRev r).reverse, d < 10 :=
    fun d hd => hlt d (List.mem_reverse.mp hd)
  have hnws : ∀ c ∈ (toDigitsRev r).reverse.map digitChar, c.isWhitespace = false := by
    intro c hc
    rcases List.mem_map.mp hc with ⟨d, hd, he⟩
    rw [← he]
    exact (digitChar_props d (hltrev d hd)).2.2.1
  rw [trimChars_eq_self hnws]
  have hne : (toDigitsRev r).reverse.map digitChar ≠ [] := by
    simp only [ne_eq, List.map_eq_nil_iff, List.reverse_eq_nil_iff]
    exact toDigitsRev_ne_nil r hr
  rcases hL : (toDigitsRev r).reverse.map digitChar with _ | ⟨c0, rest⟩
  · exact absurd hL hne
  have hc0 : c0 ≠ '-' := by
    have hc0mem : c0 ∈ (toDigitsRev r).reverse.map digitChar := by
      rw [hL]; exact List.mem_cons_self c0 rest
    rcases List.mem_map.mp hc0mem with ⟨d, hd, he⟩
    rw [← he]
    exact (digitChar_props d (hltrev d hd)).2.2.2.2.2
  have hieq : parseIntChars (c0 :: rest) =
      if c0 = '-' then (parseNatDigits rest).map (fun m => -(m : Int))
      else (parseNatDigits (c0 :: rest)).map (fun m => (m : Int)) := rfl
  rw [hieq, if_neg hc0, ← hL]
  unfold parseNatDigits
  rw [if_neg hne, if_pos (all_isDigit_map_digitChar hltrev)]
  rw [← List.map_reverse, List.reverse_reverse, map_charVal_digitChar _ hlt,
    ofDigitsRev_toDigitsRev]
  rfl

/-- Witness for C10 at rank 1234 of 5000: the rendered text round-trips
through its commas. -/
theorem fmt_parse_round_trip_witness :
    1 ≤ 1234 ∧
      (parse_rank_text (some (fmt_rank (some 1234) (some 5000))) = some (1234 : Int) ∧
        parse_rank_text (some []) = none ∧ parse_rank_text none = none) :=
  ⟨by decide, fmt_parse_round_trip 1234 5000 (by decide) (by decide)⟩

/-! ### Rank tables (`compute_rank_tables`, src/app.py:797) -/

/-- Row of a rank table: year, the unit's valuation that year, its rank in
the scope pool (missing when the rank series has NaN there) and the
denominator `zone_n` / `all_n` passed to `_fmt_rank`. -/
structure RankEntry where
  year : Nat
  price : ℚ
  rank : Option Nat
  total : Nat
deriving DecidableEq

/-- Per-year entries of one scope of `compute_rank_tables`: for each year
with a non-missing valuation of the picked row, its rank inside the pool and
the fixed pool denominator (the loop body, src/app.py:818-832; years with a
missing valuation produce no row, src/app.py:826-827). -/
def rank_rows (pool : List Row) (poolN : Nat) (pickRow : Row) (yearCols : List Nat) :
    List RankEntry :=
  yearCols.filterMap (fun y =>
    (pickRow.vals y).map (fun price => ⟨y, price, rankOf pool y pickRow, poolN⟩))

/-- Model of `compute_rank_tables(df_num, year_cols, zone, complex, dong, ho)`
(src/app.py:797-843): raise when the 4-key filter matches nothing; else rank
the picked row inside the zone pool and the global pool per year, with
denominators `zone_n = len(zone_df)` and `all_n = len(df_num)` computed once
from the raw pool sizes; finally drop rows whose rank text is empty
(src/app.py:837-841; the price dropna is a no-op since only non-missing
prices create rows). -/
def compute_rank_tables (t : Table) (yearCols : List Nat) (zone complexName : String)
    (dong ho : Int) : Except String (List RankEntry × List RankEntry) :=
  match t.rows.filter (keyMatch zone complexName dong ho) with
  | [] => Except.error "선택한 조건의 행을 찾지 못했습니다."
  | pickRow :: _ =>
    let zoneDf := t.rows.filter (fun r => r.zone == zone)
    Except.ok
      ((rank_rows zoneDf zoneDf.length pickRow yearCols).filter
          (fun e => !(fmt_rank e.rank (some e.total)).isEmpty),
        (rank_rows t.rows t.rows.length pickRow yearCols).filter
          (fun e => !(fmt_rank e.rank (some e.total)).isEmpty))

theorem mem_rank_rows {pool : List Row} {poolN : Nat} {pick : Row} {yearCols : List Nat}
    {e : RankEntry} :
    e ∈ rank_rows pool poolN pick yearCols ↔
      ∃ y ∈ yearCols, ∃ p, pick.vals y = some p ∧
        e = ⟨y, p, rankOf pool y pick, poolN⟩ := by
  unfold rank_rows
  rw [List.mem_filterMap]
  constructor
  · rintro ⟨y, hy, hf⟩
    rw [Option.map_eq_some'] at hf
    rcases hf with ⟨p, hp, he⟩
    exact ⟨y, hy, p, hp, he.symm⟩
  · rintro ⟨y, hy, p, hp, he⟩
    refine ⟨y, hy, ?_⟩
    rw [hp, Option.map_some', he]

theorem fmt_rank_some_isEmpty_false (k m : Nat) :
    (fmt_rank (some k) (some m)).isEmpty = false := by
  rcases hnc : natToCommaChars k with _ | ⟨c, cs⟩
  · exact absurd hnc (natToCommaChars_ne_nil k)
  · simp [fmt_rank, hnc]

theorem filter_rank_rows_eq (pool : List Row) (poolN : Nat) (pick : Row)
    (yearCols : List Nat) :
    (rank_rows pool poolN pick yearCols).filter
        (fun e => !(fmt_rank e.rank (some e.total)).isEmpty) =
      rank_rows pool poolN pick yearCols := by
  rw [List.filter_eq_self]
  intro e he
  rcases mem_rank_rows.mp he with ⟨y, _, p, hp, he2⟩
  have hrank : e.rank = some (rankVal pool y p) := by
    rw [he2]
    simp [rankOf, hp]
  rw [hrank, fmt_rank_some_isEmpty_false]
  rfl

theorem compute_rank_tables_eq {t : Table} {yearCols : List Nat}
    {zone complexName : String} {dong ho : Int} {pickRow : Row} {rest : List Row}
    (hpick : t.rows.filter (keyMatch zone complexName dong ho) = pickRow :: rest) :
    compute_rank_tables t yearCols zone complexName dong ho =
      Except.ok
        (rank_rows (t.rows.filter (fun r => r.zone == zone))
            (t.rows.filter (fun r => r.zone == zone)).length pickRow yearCols,
          rank_rows t.rows t.rows.length pickRow yearCols) := by
  unfold compute_rank_tables
  rw [hpick]
  simp only [filter_rank_rows_eq]

/-- C2 as stated is false on the code: the denominators are the raw pool
row counts `len(zone_df)` / `len(df_num)` (src/app.py:811-812), not the
per-year non-missing counts.  With one zone row missing its 2016 valuation,
the emitted 2016 entry carries denominator 2 while only 1 row has a
non-missing 2016 valuation. -/
def c2rowA : Row := ⟨"A", "CA", 1, 1, fun y => if y = 2016 then some 10 else none⟩

def c2rowB : Row := ⟨"A", "CB", 2, 2, fun _ => none⟩

def c2table : Table := ⟨[c2rowA, c2rowB], [2016]⟩

theorem pool_size_claim_cex :
    compute_rank_tables c2table [2016] "A" "CA" 1 1 =
      Except.ok ([⟨2016, 10, some 1, 2⟩], [⟨2016, 10, some 1, 2⟩]) ∧
    nonMissingCount (c2table.rows.filter (fun r => r.zone == "A")) 2016 = 1 ∧
    nonMissingCount c2table.rows 2016 = 1 ∧
    ¬ (∀ zt gt : List RankEntry,
        compute_rank_tables c2table [2016] "A" "CA" 1 1 = Except.ok (zt, gt) →
        ∀ e ∈ zt,
          e.total = nonMissingCount (c2table.rows.filter (fun r => r.zone == "A")) e.year) := by
  have hok : compute_rank_tables c2table [2016] "A" "CA" 1 1 =
      Except.ok ([⟨2016, 10, some 1, 2⟩], [⟨2016, 10, some 1, 2⟩]) := by
    with_unfolding_all rfl
  have hcnt : nonMissingCount (c2table.rows.filter (fun r => r.zone == "A")) 2016 = 1 := by
    with_unfolding_all rfl
  refine ⟨hok, hcnt, by with_unfolding_all rfl, ?_⟩
  intro h
  have h2 := h [⟨2016, 10, some 1, 2⟩] [⟨2016, 10, some 1, 2⟩] hok
    ⟨2016, 10, some 1, 2⟩ (List.mem_cons_self _ _)
  rw [hcnt] at h2
  exact absurd h2 (by decide)

/-- C2 amended: the pool_size reported in the rank output (the denominator
of the rank text) equals the total number of rows of the scope pool — the
zone subset for the zone scope and the whole table for the global scope —
counted once independently of the year and regardless of missing
valuations, and the rank text of every emitted entry is the rank and this
denominator joined by a slash. -/
theorem pool_size_total_rows (t : Table) (yearCols : List Nat) (zone complexName : String)
    (dong ho : Int) (zt gt : List RankEntry)
    (hok : compute_rank_tables t yearCols zone complexName dong ho = Except.ok (zt, gt)) :
    (∀ e ∈ zt, e.total = (t.rows.filter (fun r => r.zone == zone)).length ∧
      ∃ k, e.rank = some k ∧
        fmt_rank e.rank (some e.total) = natToCommaChars k ++ '/' :: natToCommaChars e.total) ∧
    (∀ e ∈ gt, e.total = t.rows.length ∧
      ∃ k, e.rank = some k ∧
        fmt_rank e.rank (some e.total) = natToCommaChars k ++ '/' :: natToCommaChars e.total) := by
  rcases hpick : t.rows.filter (keyMatch zone complexName dong ho) with _ | ⟨pickRow, rest⟩
  · rw [compute_rank_tables, hpick] at hok
    exact absurd hok (by simp)
  · rw [compute_rank_tables_eq hpick] at hok
    have hok2 := Except.ok.inj hok
    have hzt : zt = rank_rows (t.rows.filter (fun r => r.zone == zone))
        (t.rows.filter (fun r => r.zone == zone)).length pickRow yearCols :=
      (congrArg Prod.fst hok2).symm
    have hgt : gt = rank_rows t.rows t.rows.length pickRow yearCols :=
      (congrArg Prod.snd hok2).symm
    constructor
    · intro e he
      rw [hzt] at he
      rcases mem_rank_rows.mp he with ⟨y, _, p, hp, he2⟩
      refine ⟨by rw [he2], rankVal (t.rows.filter (fun r => r.zone == zone)) y p, ?_, ?_⟩
      · rw [he2]; simp [rankOf, hp]
      · rw [he2]; simp [rankOf, hp, fmt_rank]
    · intro e he
      rw [hgt] at he
      rcases mem_rank_rows.mp he with ⟨y, _, p, hp, he2⟩
      refine ⟨by rw [he2], rankVal t.rows y p, ?_, ?_⟩
      · rw [he2]; simp [rankOf, hp]
      · rw [he2]; simp [rankOf, hp, fmt_rank]

/-- Witness for the amended C2 at the counterexample table: the denominator
2 is the zone pool size. -/
theorem pool_size_total_rows_witness :
    (∀ e ∈ [(⟨2016, 10, some 1, 2⟩ : RankEntry)],
      e.total = (c2table.rows.filter (fun r => r.zone == "A")).length ∧
      ∃ k, e.rank = some k ∧
        fmt_rank e.rank (some e.total) = natToCommaChars k ++ '/' :: natToCommaChars e.total) ∧
    (∀ e ∈ [(⟨2016, 10, some 1, 2⟩ : RankEntry)],
      e.total = c2table.rows.length ∧
      ∃ k, e.rank = some k ∧
        fmt_rank e.rank (some e.total) = natToCommaChars k ++ '/' :: natToCommaChars e.total) :=
  pool_size_total_rows c2table [2016] "A" "CA" 1 1 _ _ (by with_unfolding_all rfl)

/-- C6: the per-unit rank lookup emits an entry for exactly the years (of
the supplied year columns) where the target unit's own valuation is
non-missing — years with a missing own valuation are omitted entirely — and
a row with a missing valuation in a year receives no rank in that year's
ranking of any pool. -/
theorem rank_years_exact (t : Table) (yearCols : List Nat) (zone complexName : String)
    (dong ho : Int) (pickRow : Row) (rest : List Row)
    (hpick : t.rows.filter (keyMatch zone complexName dong ho) = pickRow :: rest) :
    ∃ zt gt, compute_rank_tables t yearCols zone complexName dong ho = Except.ok (zt, gt) ∧
      (∀ y, (∃ e ∈ zt, e.year = y) ↔ (y ∈ yearCols ∧ (pickRow.vals y).isSome = true)) ∧
      (∀ y, (∃ e ∈ gt, e.year = y) ↔ (y ∈ yearCols ∧ (pickRow.vals y).isSome = true)) ∧
      (∀ (pool : List Row) (y : Nat) (r : Row), r.vals y = none → rankOf pool y r = none) := by
  have hyears : ∀ (pool : List Row) (poolN : Nat) (y : Nat),
      (∃ e ∈ rank_rows pool poolN pickRow yearCols, e.year = y) ↔
        (y ∈ yearCols ∧ (pickRow.vals y).isSome = true) := by
    intro pool poolN y
    constructor
    · rintro ⟨e, he, hy⟩
      rcases mem_rank_rows.mp he with ⟨y2, hy2, p, hp, he2⟩
      have : e.year = y2 := by rw [he2]
      rw [this] at hy
      subst hy
      exact ⟨hy2, by rw [hp]; rfl⟩
    · rintro ⟨hy, hsome⟩
      rcases Option.isSome_iff_exists.mp hsome with ⟨p, hp⟩
      exact ⟨⟨y, p, rankOf pool y pickRow, poolN⟩,
        mem_rank_rows.mpr ⟨y, hy, p, hp, rfl⟩, rfl⟩
  refine ⟨_, _, compute_rank_tables_eq hpick, hyears _ _, hyears _ _, ?_⟩
  intro pool y r hnone
  rw [rankOf, hnone]
  rfl

/-- Table for the C6 witness: a single unit with valuations in 2018 and
2020 but not 2019. -/
def c6row : Row :=
  ⟨"A", "C", 1, 1, fun y => if y = 2018 then some 5 else if y = 2020 then some 7 else none⟩

def c6table : Table := ⟨[c6row], [2018, 2019, 2020]⟩

/-- Witness for C6: years 2018 and 2020 are emitted, 2019 is omitted. -/
theorem rank_years_exact_witness :
    ∃ zt gt, compute_rank_tables c6table [2018, 2019, 2020] "A" "C" 1 1 = Except.ok (zt, gt) ∧
      (∀ y, (∃ e ∈ zt, e.year = y) ↔ (y ∈ [2018, 2019, 2020] ∧ (c6row.vals y).isSome = true)) ∧
      (∀ y, (∃ e ∈ gt, e.year = y) ↔ (y ∈ [2018, 2019, 2020] ∧ (c6row.vals y).isSome = true)) ∧
      (∀ (pool : List Row) (y : Nat) (r : Row), r.vals y = none → rankOf pool y r = none) :=
  rank_years_exact c6table [2018, 2019, 2020] "A" "C" 1 1 c6row [] (by with_unfolding_all rfl)

/-! ### Lexicographic sort orders used by `sort_values` on several keys.
pandas multi-key `sort_values` orders rows lexicographically by the listed
keys (stable), which these combinators model. -/

/-- Comparison by one ascending key. -/
def keyLe {γ α : Type} [LinearOrder α] (f : γ → α) (a b : γ) : Prop := f a ≤ f b

/-- Lexicographic order: ascending key `f` first, then the order `g`. -/
def lexAsc {γ α : Type} [LinearOrder α] (f : γ → α) (g : γ → γ → Prop) (a b : γ) : Prop :=
  f a < f b ∨ (f a = f b ∧ g a b)

/-- Lexicographic order: descending key `f` first, then the order `g`. -/
def lexDesc {γ α : Type} [LinearOrder α] (f : γ → α) (g : γ → γ → Prop) (a b : γ) : Prop :=
  f b < f a ∨ (f a = f b ∧ g a b)

instance keyLeDecidable {γ α : Type} [LinearOrder α] (f : γ → α) : DecidableRel (keyLe f) :=
  fun a b => inferInstanceAs (Decidable (f a ≤ f b))

instance keyLeTotal {γ α : Type} [LinearOrder α] (f : γ → α) : IsTotal γ (keyLe f) :=
  ⟨fun a b => le_total (f a) (f b)⟩

instance keyLeTrans {γ α : Type} [LinearOrder α] (f : γ → α) : IsTrans γ (keyLe f) :=
  ⟨fun _ _ _ h1 h2 => le_trans h1 h2⟩

instance lexAscDecidable {γ α : Type} [LinearOrder α] (f : γ → α) (g : γ → γ → Prop)
    [DecidableRel g] : DecidableRel (lexAsc f g) :=
  fun a b => inferInstanceAs (Decidable (f a < f b ∨ (f a = f b ∧ g a b)))

instance lexAscTotal {γ α : Type} [LinearOrder α] (f : γ → α) (g : γ → γ → Prop)
    [IsTotal γ g] : IsTotal γ (lexAsc f g) := by
  refine ⟨fun a b => ?_⟩
  rcases lt_trichotomy (f a) (f b) with h | h | h
  · exact Or.inl (Or.inl h)
  · rcases IsTotal.total (r := g) a b with hg | hg
    · exact Or.inl (Or.inr ⟨h, hg⟩)
    · exact Or.inr (Or.inr ⟨h.symm, hg⟩)
  · exact Or.inr (Or.inl h)

instance lexAscTrans {γ α : Type} [LinearOrder α] (f : γ → α) (g : γ → γ → Prop)
    [IsTrans γ g] : IsTrans γ (lexAsc f g) := by
  refine ⟨fun a b c hab hbc => ?_⟩
  rcases hab with h1 | ⟨e1, g1⟩
  · rcases hbc with h2 | ⟨e2, _⟩
    · exact Or.inl (lt_trans h1 h2)
    · exact Or.inl (lt_of_lt_of_eq h1 e2)
  · rcases hbc with h2 | ⟨e2, g2⟩
    · exact Or.inl (lt_of_eq_of_lt e1 h2)
    · exact Or.inr ⟨e1.trans e2, IsTrans.trans a b c g1 g2⟩

instance lexDescDecidable {γ α : Type} [LinearOrder α] (f : γ → α) (g : γ → γ → Prop)
    [DecidableRel g] : DecidableRel (lexDesc f g) :=
  fun a b => inferInstanceAs (Decidable (f b < f a ∨ (f a = f b ∧ g a b)))

instance lexDescTotal {γ α : Type} [LinearOrder α] (f : γ → α) (g : γ → γ → Prop)
    [IsTotal γ g] : IsTotal γ (lexDesc f g) := by
  refine ⟨fun a b => ?_⟩
  rcases lt_trichotomy (f a) (f b) with h | h | h
  · exact Or.inr (Or.inl h)
  · rcases IsTotal.total (r := g) a b with hg | hg
    · exact Or.inl (Or.inr ⟨h, hg⟩)
    · exact Or.inr (Or.inr ⟨h.symm, hg⟩)
  · exact Or.inl (Or.inl h)

instance lexDescTrans {γ α : Type} [LinearOrder α] (f : γ → α) (g : γ → γ → Prop)
    [IsTrans γ g] : IsTrans γ (lexDesc f g) := by
  refine ⟨fun a b c hab hbc => ?_⟩
  rcases hab with h1 | ⟨e1, g1⟩
  · rcases hbc with h2 | ⟨e2, _⟩
    · exact Or.inl (lt_trans h2 h1)
    · exact Or.inl (lt_of_eq_of_lt e2.symm h1)
  · rcases hbc with h2 | ⟨e2, g2⟩
    · exact Or.inl (lt_of_lt_of_eq h2 e1.symm)
    · exact Or.inr ⟨e1.trans e2, IsTrans.trans a b c g1 g2⟩

theorem rel_refl_of_total {γ : Type} {r : γ → γ → Prop} [IsTotal γ r] (a : γ) : r a a :=
  (IsTotal.total a a).elim id id

theorem sorted_head_rel {γ : Type} {r : γ → γ → Prop} [IsTotal γ r] {x : γ} {xs : List γ}
    (h : List.Sorted r (x :: xs)) : ∀ y ∈ x :: xs, r x y := by
  intro y hy
  rcases List.mem_cons.mp hy with he | hm
  · rw [he]; exact rel_refl_of_total x
  · exact List.rel_of_sorted_cons h y hm

/-! ### Simple-mode comparable search (`find_closest_by_2016`, src/app.py:849) -/

/-- Candidate row of the simple-mode search, with its base-year valuation
and the absolute difference from the target's base-year valuation. -/
structure Sc where
  zone : String
  complexName : String
  dong : Int
  ho : Int
  p2016 : ℚ
  diff : ℚ
deriving DecidableEq

/-- Sort order of `cand.sort_values(["diff", "구역", "단지명", "동", "호"])`
(src/app.py:875): ascending by difference, then by the candidate key. -/
abbrev scLe : Sc → Sc → Prop :=
  lexAsc Sc.diff (lexAsc Sc.zone (lexAsc Sc.complexName (lexAsc Sc.dong (keyLe Sc.ho))))

/-- Model of the repeated 4-key target lookup `df_num[...].iloc[0]` used by
the search functions: the first row matching the key, if any. -/
def targetRow (t : Table) (zone complexName : String) (dong ho : Int) : Option Row :=
  (t.rows.filter (keyMatch zone complexName dong ho)).head?

/-- Candidates of the simple-mode search (src/app.py:867-874): rows of a
zone other than the target's whose base-year valuation is non-missing,
carrying `diff = |p2016 - base_price|`. -/
def simpleCands (t : Table) (baseZone : String) (basePrice : ℚ) (y16 : Nat) : List Sc :=
  (t.rows.filter (fun r => !(r.zone == baseZone))).filterMap (fun r =>
    (r.vals y16).map (fun p => ⟨r.zone, r.complexName, r.dong, r.ho, p, |p - basePrice|⟩))

/-- Result record of `find_closest_by_2016` (src/app.py:877-885). -/
structure SimpleRes where
  basePrice : ℚ
  cmpZone : String
  cmpComplex : String
  cmpDong : Int
  cmpHo : Int
  cmpPrice : ℚ
  diff : ℚ
deriving DecidableEq

/-- Model of `find_closest_by_2016(df_num, base_zone, base_key, year2016)`
(src/app.py:849-885): `None` when the year column is absent, the target is
not found, the target's base-year valuation is missing, or no out-of-zone
candidate has one; otherwise the head of the candidates sorted by
`(diff, 구역, 단지명, 동, 호)` ascending. -/
def find_closest_by_2016 (t : Table) (baseZone : String) (selZone selComplex : String)
    (selDong selHo : Int) (y16 : Nat) : Option SimpleRes :=
  if y16 ∈ t.cols then
    match targetRow t selZone selComplex selDong selHo with
    | none => none
    | some baseRow =>
      match baseRow.vals y16 with
      | none => none
      | some basePrice =>
        match List.insertionSort scLe (simpleCands t baseZone basePrice y16) with
        | [] => none
        | best :: _ =>
          some ⟨basePrice, best.zone, best.complexName, best.dong, best.ho, best.p2016, best.diff⟩
  else none

/-- C5: among rows of another zone with a non-missing base-year valuation,
simple-mode search returns the one minimizing the absolute difference from
the target's base-year valuation, ties broken by the ascending
(zone, complex, dong, ho) sort order; it is empty when the target's
base-year valuation is missing or no candidate exists. -/
theorem nearest_by_base_year (t : Table) (baseZone selZone selComplex : String)
    (selDong selHo : Int) (y16 : Nat) (baseRow : Row)
    (hrow : targetRow t selZone selComplex selDong selHo = some baseRow) :
    (baseRow.vals y16 = none →
      find_closest_by_2016 t baseZone selZone selComplex selDong selHo y16 = none) ∧
    (∀ bp : ℚ, baseRow.vals y16 = some bp → simpleCands t baseZone bp y16 = [] →
      find_closest_by_2016 t baseZone selZone selComplex selDong selHo y16 = none) ∧
    (∀ (bp : ℚ) (res : SimpleRes), baseRow.vals y16 = some bp →
      find_closest_by_2016 t baseZone selZone selComplex selDong selHo y16 = some res →
      ∃ c ∈ simpleCands t baseZone bp y16,
        res = ⟨bp, c.zone, c.complexName, c.dong, c.ho, c.p2016, c.diff⟩ ∧
        ∀ c2 ∈ simpleCands t baseZone bp y16, c.diff ≤ c2.diff ∧ scLe c c2) := by
  refine ⟨?_, ?_, ?_⟩
  · intro hnone
    by_cases hcol : y16 ∈ t.cols
    · simp [find_closest_by_2016, hcol, hrow, hnone]
    · simp [find_closest_by_2016, hcol]
  · intro bp hbp hempty
    by_cases hcol : y16 ∈ t.cols
    · simp [find_closest_by_2016, hcol, hrow, hbp, hempty]
    · simp [find_closest_by_2016, hcol]
  · intro bp res hbp hres
    by_cases hcol : y16 ∈ t.cols
    · rcases hsort : List.insertionSort scLe (simpleCands t baseZone bp y16) with _ | ⟨best, tail⟩
      · simp [find_closest_by_2016, hcol, hrow, hbp, hsort] at hres
      · simp only [find_closest_by_2016, hcol, if_pos, hrow, hbp, hsort] at hres
        have hbestmem : best ∈ simpleCands t baseZone bp y16 := by
          rw [← List.mem_insertionSort (r := scLe), hsort]
          exact List.mem_cons_self best tail
        have hsorted : List.Sorted scLe (best :: tail) := by
          rw [← hsort]
          exact List.sorted_insertionSort scLe (simpleCands t baseZone bp y16)
        refine ⟨best, hbestmem, (Option.some.inj hres).symm, ?_⟩
        intro c2 hc2
        have hc2s : c2 ∈ best :: tail := by
          rw [← hsort, List.mem_insertionSort]
          exact hc2
        have hle : scLe best c2 := sorted_head_rel hsorted c2 hc2s
        refine ⟨?_, hle⟩
        rcases hle with h | ⟨he, _⟩
        · exact le_of_lt h
        · exact le_of_eq he
    · simp [find_closest_by_2016, hcol] at hres

/-- Table for the C5 witness, matching the specification example: the
target's 2016 valuation is 12.0 and the two out-of-zone candidates have
2016 valuations 11.5 and 15.0. -/
def w5target : Row := ⟨"A", "T", 1, 1, fun y => if y = 2016 then some 12 else none⟩

def w5cand1 : Row := ⟨"B", "U", 2, 2, fun y => if y = 2016 then some 11.5 else none⟩

def w5cand2 : Row := ⟨"C", "V", 3, 3, fun y => if y = 2016 then some 15 else none⟩

def w5table : Table := ⟨[w5target, w5cand1, w5cand2], [2016]⟩

/-- Witness for C5: the 11.5 candidate (difference 0.5) is returned ahead
of the 15.0 candidate (difference 3.0). -/
theorem nearest_by_base_year_witness :
    ∃ c ∈ simpleCands w5table "A" 12 2016,
      (⟨12, "B", "U", 2, 2, 11.5, 0.5⟩ : SimpleRes) =
        ⟨12, c.zone, c.complexName, c.dong, c.ho, c.p2016, c.diff⟩ ∧
      ∀ c2 ∈ simpleCands w5table "A" 12 2016, c.diff ≤ c2.diff ∧ scLe c c2 :=
  (nearest_by_base_year w5table "A" "A" "T" 1 1 2016 w5target
      (by with_unfolding_all rfl)).2.2 12 ⟨12, "B", "U", 2, 2, 11.5, 0.5⟩
    (by with_unfolding_all rfl) (by with_unfolding_all rfl)

/-- C9: the per-unit rank lookup fails (raises, modelled by `Except.error`)
exactly when the target key matches zero rows, while comparable search with
an existing target but no qualifying candidate does not fail and returns
the empty result. -/
theorem notfound_vs_empty_search :
    (∀ (t : Table) (yearCols : List Nat) (zone complexName : String) (dong ho : Int),
      (∃ msg, compute_rank_tables t yearCols zone complexName dong ho = Except.error msg) ↔
        t.rows.filter (keyMatch zone complexName dong ho) = []) ∧
    (∀ (t : Table) (baseZone selZone selComplex : String) (selDong selHo : Int) (y16 : Nat)
      (baseRow : Row) (bp : ℚ),
      targetRow t selZone selComplex selDong selHo = some baseRow →
      baseRow.vals y16 = some bp →
      simpleCands t baseZone bp y16 = [] →
      find_closest_by_2016 t baseZone selZone selComplex selDong selHo y16 = none) := by
  constructor
  · intro t yearCols zone complexName dong ho
    rcases hpick : t.rows.filter (keyMatch zone complexName dong ho) with _ | ⟨p, rest⟩
    · refine ⟨fun _ => rfl, fun _ => ⟨"선택한 조건의 행을 찾지 못했습니다.", ?_⟩⟩
      rw [compute_rank_tables, hpick]
    · rw [compute_rank_tables_eq hpick]
      simp
  · intro t baseZone selZone selComplex selDong selHo y16 baseRow bp hrow hbp hempty
    by_cases hcol : y16 ∈ t.cols
    · simp [find_closest_by_2016, hcol, hrow, hbp, hempty]
    · simp [find_closest_by_2016, hcol]

/-- Witness for C9: a key matching no row makes the rank lookup fail, and
an existing target with no out-of-zone candidate makes the simple search
return the empty result instead. -/
theorem notfound_vs_empty_search_witness :
    (∃ msg, compute_rank_tables c2table [2016] "A" "NOPE" 9 9 = Except.error msg) ∧
    find_closest_by_2016 c6table "A" "A" "C" 1 1 2018 = none :=
  ⟨(notfound_vs_empty_search.1 c2table [2016] "A" "NOPE" 9 9).mpr (by with_unfolding_all rfl),
    notfound_vs_empty_search.2 c6table "A" "A" "C" 1 1 2018 c6row 5
      (by with_unfolding_all rfl) (by with_unfolding_all rfl) (by with_unfolding_all rfl)⟩

/-! ### Inversion-mode comparable search
(`find_candidates_by_2016_with_rank_inversion`, src/app.py:889, and
`find_closest_by_2016_with_rank_inversion`, src/app.py:998) -/

/-- Out-of-zone candidate with both yearly valuations present and its
global-pool ranks for the base and latest year (the rows surviving
`cand.dropna(subset=["p2016","plast","r2016","rlast"])`, src/app.py:940-945;
a rank is non-missing exactly when the valuation is). -/
structure Cand where
  zone : String
  complexName : String
  dong : Int
  ho : Int
  p2016 : ℚ
  plast : ℚ
  r2016 : Nat
  rlast : Nat
deriving DecidableEq

/-- Candidate rows of the inversion-mode search before the inversion filter
(src/app.py:940-945): zone differs from the target's, both valuations
present, ranks taken from the global rank series of the whole table. -/
def rawCands (t : Table) (baseZone : String) (y16 yl : Nat) : List Cand :=
  (t.rows.filter (fun r => !(r.zone == baseZone))).filterMap (fun r =>
    match r.vals y16, r.vals yl with
    | some c16, some clast =>
      some ⟨r.zone, r.complexName, r.dong, r.ho, c16, clast,
        rankVal t.rows y16 c16, rankVal t.rows yl clast⟩
    | _, _ => none)

/-- Inversion qualification (src/app.py:949-953): both rank deltas
`base_rank - candidate_rank` (base year and latest year) are nonzero and
their product is negative. -/
def invProp (bR16 bRl : Nat) (c : Cand) : Prop :=
  ((bR16 : Int) - c.r2016) ≠ 0 ∧ ((bRl : Int) - c.rlast) ≠ 0 ∧
    ((bR16 : Int) - c.r2016) * ((bRl : Int) - c.rlast) < 0

instance invPropDecidable (bR16 bRl : Nat) (c : Cand) : Decidable (invProp bR16 bRl c) :=
  inferInstanceAs (Decidable (_ ∧ _ ∧ _))

/-- Output record of the inversion-mode candidate table `cand_out`
(src/app.py:964-987). -/
structure CandOut where
  year2016 : Nat
  lastYear : Nat
  basePrice2016 : ℚ
  baseRank2016 : Nat
  basePriceLast : ℚ
  baseRankLast : Nat
  baseRankChangeAbs : Nat
  cmpZone : String
  cmpComplex : String
  cmpDong : Int
  cmpHo : Int
  cmpPrice2016 : ℚ
  cmpRank2016 : Nat
  cmpPriceLast : ℚ
  cmpRankLast : Nat
  isInv : Bool
  diffPrice2016 : ℚ
  candRankChangeAbs : Nat
  relativeRankSwing : Nat
deriving DecidableEq

/-- Derived columns of `cand_out` (src/app.py:960-987): absolute base-year
price difference, candidate own-rank change, and the relative rank swing
`|(base-cand)_last - (base-cand)_2016|`. -/
def mkCandOut (y16 yl : Nat) (p16b plastb : ℚ) (bR16 bRl : Nat) (c : Cand) : CandOut :=
  { year2016 := y16
    lastYear := yl
    basePrice2016 := p16b
    baseRank2016 := bR16
    basePriceLast := plastb
    baseRankLast := bRl
    baseRankChangeAbs := ((bRl : Int) - (bR16 : Int)).natAbs
    cmpZone := c.zone
    cmpComplex := c.complexName
    cmpDong := c.dong
    cmpHo := c.ho
    cmpPrice2016 := c.p2016
    cmpRank2016 := c.r2016
    cmpPriceLast := c.plast
    cmpRankLast := c.rlast
    isInv := decide (invProp bR16 bRl c)
    diffPrice2016 := |c.p2016 - p16b|
    candRankChangeAbs := ((c.rlast : Int) - (c.r2016 : Int)).natAbs
    relativeRankSwing :=
      (((bRl : Int) - (c.rlast : Int)) - ((bR16 : Int) - (c.r2016 : Int))).natAbs }

/-- Sort order of the candidate table (src/app.py:990-993): closest 2016
price first, then larger relative swing, larger own-rank change, and the
ascending candidate key. -/
abbrev coLe : CandOut → CandOut → Prop :=
  lexAsc CandOut.diffPrice2016
    (lexDesc CandOut.relativeRankSwing
      (lexDesc CandOut.candRankChangeAbs
        (lexAsc CandOut.cmpZone
          (lexAsc CandOut.cmpComplex (lexAsc CandOut.cmpDong (keyLe CandOut.cmpHo))))))

/-- Sort order of the final selection (src/app.py:1026-1029): largest
relative swing first, then larger own-rank change, then smaller base-year
price difference. -/
abbrev selLe : CandOut → CandOut → Prop :=
  lexDesc CandOut.relativeRankSwing
    (lexDesc CandOut.candRankChangeAbs (keyLe CandOut.diffPrice2016))

/-- Model of `find_candidates_by_2016_with_rank_inversion` (src/app.py:889-995):
empty when a year column is absent, the target is missing, or either target
valuation is missing; otherwise the out-of-zone candidates with both
valuations present, filtered to inversions when required, sorted by `coLe`.
The `isna(base_r2016)` guard of src/app.py:937 cannot fire since the rank of
a present valuation is always present. -/
def find_candidates_by_2016_with_rank_inversion (t : Table)
    (baseZone selZone selComplex : String) (selDong selHo : Int) (y16 yl : Nat)
    (requireInversion : Bool) : List CandOut :=
  if y16 ∈ t.cols ∧ yl ∈ t.cols then
    match targetRow t selZone selComplex selDong selHo with
    | none => []
    | some baseRow =>
      match baseRow.vals y16, baseRow.vals yl with
      | some p16, some plast =>
        List.insertionSort coLe
          ((if requireInversion then
              (rawCands t baseZone y16 yl).filter
                (fun c => decide (invProp (rankVal t.rows y16 p16) (rankVal t.rows yl plast) c))
            else rawCands t baseZone y16 yl).map
            (mkCandOut y16 yl p16 plast (rankVal t.rows y16 p16) (rankVal t.rows yl plast)))
      | _, _ => []
  else []

/-- Model of `find_closest_by_2016_with_rank_inversion` (src/app.py:998-1053):
`None` when no qualifying candidate exists, else the head of the
`max 1 topN` closest candidates re-sorted by `selLe`.  The returned record
is the selected candidate row (the Python dict copies its fields). -/
def find_closest_by_2016_with_rank_inversion (t : Table)
    (baseZone selZone selComplex : String) (selDong selHo : Int) (y16 yl : Nat)
    (topN : Nat) : Option CandOut :=
  if find_candidates_by_2016_with_rank_inversion t baseZone selZone selComplex selDong
      selHo y16 yl true = [] then none
  else
    (List.insertionSort selLe
      ((find_candidates_by_2016_with_rank_inversion t baseZone selZone selComplex selDong
          selHo y16 yl true).take (max 1 topN))).head?

theorem find_candidates_true_eq {t : Table} {baseZone selZone selComplex : String}
    {selDong selHo : Int} {y16 yl : Nat} {baseRow : Row} {p16 plast : ℚ}
    (hcol : y16 ∈ t.cols ∧ yl ∈ t.cols)
    (hrow : targetRow t selZone selComplex selDong selHo = some baseRow)
    (h16 : baseRow.vals y16 = some p16) (hl : baseRow.vals yl = some plast) :
    find_candidates_by_2016_with_rank_inversion t baseZone selZone selComplex selDong selHo
        y16 yl true =
      List.insertionSort coLe
        (((rawCands t baseZone y16 yl).filter
            (fun c => decide (invProp (rankVal t.rows y16 p16) (rankVal t.rows yl plast) c))).map
          (mkCandOut y16 yl p16 plast (rankVal t.rows y16 p16) (rankVal t.rows yl plast))) := by
  unfold find_candidates_by_2016_with_rank_inversion
  rw [if_pos hcol]
  simp only [hrow, h16, hl, if_true]

theorem find_candidates_sorted (t : Table) (baseZone selZone selComplex : String)
    (selDong selHo : Int) (y16 yl : Nat) (ri : Bool) :
    List.Sorted coLe (find_candidates_by_2016_with_rank_inversion t baseZone selZone
      selComplex selDong selHo y16 yl ri) := by
  unfold find_candidates_by_2016_with_rank_inversion
  repeat' split
  all_goals first
    | exact List.sorted_nil
    | exact List.sorted_insertionSort coLe _

/-- C3: in inversion mode every returned candidate has both rank deltas
(target global rank minus candidate global rank, at the base and at the
latest year) nonzero and of opposite signs; and when no candidate
qualifies, the result is empty. -/
theorem inversion_qualification (t : Table) (baseZone selZone selComplex : String)
    (selDong selHo : Int) (y16 yl : Nat) :
    (∀ c ∈ find_candidates_by_2016_with_rank_inversion t baseZone selZone selComplex
        selDong selHo y16 yl true,
      (c.baseRank2016 : Int) - (c.cmpRank2016 : Int) ≠ 0 ∧
      (c.baseRankLast : Int) - (c.cmpRankLast : Int) ≠ 0 ∧
      ((c.baseRank2016 : Int) - (c.cmpRank2016 : Int)) *
        ((c.baseRankLast : Int) - (c.cmpRankLast : Int)) < 0) ∧
    (∀ (baseRow : Row) (p16 plast : ℚ),
      targetRow t selZone selComplex selDong selHo = some baseRow →
      baseRow.vals y16 = some p16 → baseRow.vals yl = some plast →
      (∀ c ∈ rawCands t baseZone y16 yl,
        ¬ invProp (rankVal t.rows y16 p16) (rankVal t.rows yl plast) c) →
      find_candidates_by_2016_with_rank_inversion t baseZone selZone selComplex selDong
        selHo y16 yl true = []) := by
  constructor
  · intro c hc
    by_cases hcol : y16 ∈ t.cols ∧ yl ∈ t.cols
    · rcases hrow : targetRow t selZone selComplex selDong selHo with _ | baseRow
      · simp [find_candidates_by_2016_with_rank_inversion, hcol, hrow] at hc
      · rcases h16 : baseRow.vals y16 with _ | p16
        · simp [find_candidates_by_2016_with_rank_inversion, hcol, hrow, h16] at hc
        · rcases hl : baseRow.vals yl with _ | plast
          · simp [find_candidates_by_2016_with_rank_inversion, hcol, hrow, h16, hl] at hc
          · rw [find_candidates_true_eq hcol hrow h16 hl, List.mem_insertionSort] at hc
            rcases List.mem_map.mp hc with ⟨c0, hc0, hmk⟩
            have hinv : invProp (rankVal t.rows y16 p16) (rankVal t.rows yl plast) c0 :=
              of_decide_eq_true (List.mem_filter.mp hc0).2
            rw [← hmk]
            exact hinv
    · simp [find_candidates_by_2016_with_rank_inversion, hcol] at hc
  · intro baseRow p16 plast hrow h16 hl hnone
    by_cases hcol : y16 ∈ t.cols ∧ yl ∈ t.cols
    · have hfilter : (rawCands t baseZone y16 yl).filter
          (fun c => decide (invProp (rankVal t.rows y16 p16) (rankVal t.rows yl plast) c)) =
            [] := by
        rw [List.filter_eq_nil_iff]
        intro c hc
        simp only [decide_eq_true_eq]
        exact hnone c hc
      rw [find_candidates_true_eq hcol hrow h16 hl, hfilter]
      rfl
    · simp [find_candidates_by_2016_with_rank_inversion, hcol]

/-- Table for the C3/C4 witness: the target ranks 1st in 2016 and 2nd in
2025 globally, the out-of-zone candidate the other way round. -/
def w4base : Row :=
  ⟨"A", "T", 1, 1, fun y => if y = 2016 then some 10 else if y = 2025 then some 1 else none⟩

def w4cand : Row :=
  ⟨"B", "U", 2, 2, fun y => if y = 2016 then some 9 else if y = 2025 then some 2 else none⟩

def w4table : Table := ⟨[w4base, w4cand], [2016, 2025]⟩

/-- The candidate record the inversion search produces on `w4table`. -/
def w4best : CandOut :=
  ⟨2016, 2025, 10, 1, 1, 2, 1, "B", "U", 2, 2, 9, 2, 2, 1, true, 1, 1, 2⟩

/-- Table for the empty half of the C3 witness: both units keep their
relative order between the two years, so no inversion exists. -/
def w3base : Row :=
  ⟨"A", "T", 1, 1, fun y => if y = 2016 then some 10 else if y = 2025 then some 2 else none⟩

def w3cand : Row :=
  ⟨"B", "U", 2, 2, fun y => if y = 2016 then some 9 else if y = 2025 then some 1 else none⟩

def w3table : Table := ⟨[w3base, w3cand], [2016, 2025]⟩

set_option maxRecDepth 8000 in
/-- Witness for C3: on `w4table` the returned candidate has opposite-sign
nonzero deltas; on `w3table`, where no candidate inverts, the result is
empty. -/
theorem inversion_qualification_witness :
    ((w4best.baseRank2016 : Int) - (w4best.cmpRank2016 : Int) ≠ 0 ∧
      (w4best.baseRankLast : Int) - (w4best.cmpRankLast : Int) ≠ 0 ∧
      ((w4best.baseRank2016 : Int) - (w4best.cmpRank2016 : Int)) *
        ((w4best.baseRankLast : Int) - (w4best.cmpRankLast : Int)) < 0) ∧
    find_candidates_by_2016_with_rank_inversion w3table "A" "A" "T" 1 1 2016 2025 true = [] :=
  ⟨(inversion_qualification w4table "A" "A" "T" 1 1 2016 2025).1 w4best
      (by with_unfolding_all decide),
    (inversion_qualification w3table "A" "A" "T" 1 1 2016 2025).2 w3base 10 2
      (by with_unfolding_all rfl) (by with_unfolding_all rfl) (by with_unfolding_all rfl)
      (by with_unfolding_all decide)⟩

/-- C4: the inversion-mode selection returns a candidate of the
`search_breadth` closest (the candidate list is nondecreasing in base-year
price difference and the selection is made inside its `max 1 topN` prefix)
that is maximal for the selection order: largest relative rank swing,
ties broken by larger absolute own-rank change, then smaller base-year
price difference. -/
theorem inversion_selection (t : Table) (baseZone selZone selComplex : String)
    (selDong selHo : Int) (y16 yl topN : Nat) (best : CandOut)
    (hbest : find_closest_by_2016_with_rank_inversion t baseZone selZone selComplex selDong
      selHo y16 yl topN = some best) :
    List.Pairwise (fun a b : CandOut => a.diffPrice2016 ≤ b.diffPrice2016)
        (find_candidates_by_2016_with_rank_inversion t baseZone selZone selComplex selDong
          selHo y16 yl true) ∧
    best ∈ (find_candidates_by_2016_with_rank_inversion t baseZone selZone selComplex
        selDong selHo y16 yl true).take (max 1 topN) ∧
    ∀ c ∈ (find_candidates_by_2016_with_rank_inversion t baseZone selZone selComplex
        selDong selHo y16 yl true).take (max 1 topN), selLe best c := by
  have hpair : List.Pairwise (fun a b : CandOut => a.diffPrice2016 ≤ b.diffPrice2016)
      (find_candidates_by_2016_with_rank_inversion t baseZone selZone selComplex selDong
        selHo y16 yl true) := by
    refine List.Pairwise.imp ?_
      (find_candidates_sorted t baseZone selZone selComplex selDong selHo y16 yl true)
    intro a b hab
    rcases hab with h | ⟨he, _⟩
    · exact le_of_lt h
    · exact le_of_eq he
  by_cases hnil : find_candidates_by_2016_with_rank_inversion t baseZone selZone selComplex
      selDong selHo y16 yl true = []
  · rw [find_closest_by_2016_with_rank_inversion, if_pos hnil] at hbest
    exact absurd hbest (by simp)
  · rw [find_closest_by_2016_with_rank_inversion, if_neg hnil] at hbest
    rcases hs : List.insertionSort selLe
        ((find_candidates_by_2016_with_rank_inversion t baseZone selZone selComplex selDong
          selHo y16 yl true).take (max 1 topN)) with _ | ⟨b0, rest⟩
    · rw [hs] at hbest
      exact absurd hbest (by simp)
    · rw [hs] at hbest
      have hb0 : b0 = best := Option.some.inj hbest
      subst hb0
      have hsorted : List.Sorted selLe (b0 :: rest) := by
        rw [← hs]
        exact List.sorted_insertionSort selLe _
      have hmem : b0 ∈ (find_candidates_by_2016_with_rank_inversion t baseZone selZone
          selComplex selDong selHo y16 yl true).take (max 1 topN) := by
        rw [← List.mem_insertionSort (r := selLe), hs]
        exact List.mem_cons_self b0 rest
      refine ⟨hpair, hmem, ?_⟩
      intro c2 hc2
      have hc2s : c2 ∈ b0 :: rest := by
        rw [← hs, List.mem_insertionSort]
        exact hc2
      exact sorted_head_rel hsorted c2 hc2s

set_option maxRecDepth 8000 in
/-- Witness for C4 at `w4table` with breadth 80. -/
theorem inversion_selection_witness :
    List.Pairwise (fun a b : CandOut => a.diffPrice2016 ≤ b.diffPrice2016)
        (find_candidates_by_2016_with_rank_inversion w4table "A" "A" "T" 1 1 2016 2025 true) ∧
    w4best ∈ (find_candidates_by_2016_with_rank_inversion w4table "A" "A" "T" 1 1 2016 2025
        true).take (max 1 80) ∧
    ∀ c ∈ (find_candidates_by_2016_with_rank_inversion w4table "A" "A" "T" 1 1 2016 2025
        true).take (max 1 80), selLe w4best c :=
  inversion_selection w4table "A" "A" "T" 1 1 2016 2025 80 w4best (by with_unfolding_all rfl)

theorem simpleCands_spec {t : Table} {baseZone : String} {basePrice : ℚ} {y16 : Nat} :
    ∀ c ∈ simpleCands t baseZone basePrice y16, c.zone ≠ baseZone ∧ 0 ≤ c.diff := by
  intro c hc
  unfold simpleCands at hc
  rcases List.mem_filterMap.mp hc with ⟨r, hr, hf⟩
  rcases Option.map_eq_some'.mp hf with ⟨p, _, he⟩
  have hzone : r.zone ≠ baseZone := by
    have := (List.mem_filter.mp hr).2
    simpa using this
  constructor
  · rw [← he]
    exact hzone
  · rw [← he]
    exact abs_nonneg _

theorem rawCands_zone {t : Table} {baseZone : String} {y16 yl : Nat} :
    ∀ c ∈ rawCands t baseZone y16 yl, c.zone ≠ baseZone := by
  intro c hc
  unfold rawCands at hc
  rcases List.mem_filterMap.mp hc with ⟨r, hr, hf⟩
  have hzone : r.zone ≠ baseZone := by
    have := (List.mem_filter.mp hr).2
    simpa using this
  rcases h16 : r.vals y16 with _ | c16 <;> rcases hl : r.vals yl with _ | clast <;>
    rw [h16, hl] at hf
  · exact absurd hf (by simp)
  · exact absurd hf (by simp)
  · exact absurd hf (by simp)
  · rw [← Option.some.inj hf]
    exact hzone

theorem find_candidates_mem_spec {t : Table} {baseZone selZone selComplex : String}
    {selDong selHo : Int} {y16 yl : Nat} {ri : Bool} :
    ∀ c ∈ find_candidates_by_2016_with_rank_inversion t baseZone selZone selComplex selDong
      selHo y16 yl ri,
      c.cmpZone ≠ baseZone ∧ 0 ≤ c.diffPrice2016 := by
  intro c hc
  unfold find_candidates_by_2016_with_rank_inversion at hc
  by_cases hcol : y16 ∈ t.cols ∧ yl ∈ t.cols
  · rw [if_pos hcol] at hc
    rcases hrow : targetRow t selZone selComplex selDong selHo with _ | baseRow
    · rw [hrow] at hc
      exact absurd hc (by simp)
    · rw [hrow] at hc
      rcases h16 : baseRow.vals y16 with _ | p16
      · simp only [h16] at hc
        exact absurd hc (by simp)
      · rcases hl : baseRow.vals yl with _ | plast
        · simp only [h16, hl] at hc
          exact absurd hc (by simp)
        · simp only [h16, hl, List.mem_insertionSort] at hc
          rcases List.mem_map.mp hc with ⟨c0, hc0, hmk⟩
          have hc0raw : c0 ∈ rawCands t baseZone y16 yl := by
            rcases hri : ri
            · rw [hri] at hc0
              simpa using hc0
            · rw [hri] at hc0
              simp only [if_true] at hc0
              exact (List.mem_filter.mp hc0).1
          refine ⟨?_, ?_⟩
          · rw [← hmk]
            exact rawCands_zone c0 hc0raw
          · rw [← hmk]
            exact abs_nonneg _
  · rw [if_neg hcol] at hc
    exact absurd hc (by simp)

/-- C7: any non-empty result of either comparable-search mode names a
candidate whose zone differs from the target's, and its base-year price
difference is nonnegative. -/
theorem comparable_exclusivity :
    (∀ (t : Table) (baseZone selZone selComplex : String) (selDong selHo : Int) (y16 : Nat)
      (res : SimpleRes),
      find_closest_by_2016 t baseZone selZone selComplex selDong selHo y16 = some res →
      res.cmpZone ≠ baseZone ∧ 0 ≤ res.diff) ∧
    (∀ (t : Table) (baseZone selZone selComplex : String) (selDong selHo : Int)
      (y16 yl topN : Nat) (best : CandOut),
      find_closest_by_2016_with_rank_inversion t baseZone selZone selComplex selDong selHo
          y16 yl topN = some best →
      best.cmpZone ≠ baseZone ∧ 0 ≤ best.diffPrice2016) := by
  constructor
  · intro t baseZone selZone selComplex selDong selHo y16 res hres
    by_cases hcol : y16 ∈ t.cols
    · rcases hrow : targetRow t selZone selComplex selDong selHo with _ | baseRow
      · simp [find_closest_by_2016, hcol, hrow] at hres
      · rcases hbp : baseRow.vals y16 with _ | bp
        · simp [find_closest_by_2016, hcol, hrow, hbp] at hres
        · rcases hsort : List.insertionSort scLe (simpleCands t baseZone bp y16)
            with _ | ⟨best, tail⟩
          · simp [find_closest_by_2016, hcol, hrow, hbp, hsort] at hres
          · simp only [find_closest_by_2016, hcol, if_pos, hrow, hbp, hsort] at hres
            have hbestmem : best ∈ simpleCands t baseZone bp y16 := by
              rw [← List.mem_insertionSort (r := scLe), hsort]
              exact List.mem_cons_self best tail
            have hspec := simpleCands_spec best hbestmem
            rw [← Option.some.inj hres]
            exact hspec
    · simp [find_closest_by_2016, hcol] at hres
  · intro t baseZone selZone selComplex selDong selHo y16 yl topN best hbest
    by_cases hnil : find_candidates_by_2016_with_rank_inversion t baseZone selZone
        selComplex selDong selHo y16 yl true = []
    · rw [find_closest_by_2016_with_rank_inversion, if_pos hnil] at hbest
      exact absurd hbest (by simp)
    · rw [find_closest_by_2016_with_rank_inversion, if_neg hnil] at hbest
      have hmem : best ∈ (find_candidates_by_2016_with_rank_inversion t baseZone selZone
          selComplex selDong selHo y16 yl true).take (max 1 topN) := by
        rw [← List.mem_insertionSort (r := selLe)]
        exact List.mem_of_mem_head? hbest
      exact find_candidates_mem_spec best (List.mem_of_mem_take hmem)

set_option maxRecDepth 8000 in
/-- Witness for C7 exercised on both search modes. -/
theorem comparable_exclusivity_witness :
    ((⟨12, "B", "U", 2, 2, 11.5, 0.5⟩ : SimpleRes).cmpZone ≠ "A" ∧
      0 ≤ (⟨12, "B", "U", 2, 2, 11.5, 0.5⟩ : SimpleRes).diff) ∧
    (w4best.cmpZone ≠ "A" ∧ 0 ≤ w4best.diffPrice2016) :=
  ⟨comparable_exclusivity.1 w5table "A" "A" "T" 1 1 2016 ⟨12, "B", "U", 2, 2, 11.5, 0.5⟩
      (by with_unfolding_all rfl),
    comparable_exclusivity.2 w4table "A" "A" "T" 1 1 2016 2025 80 w4best
      (by with_unfolding_all rfl)⟩

/-! ### Valuation coercion (`_coerce_numeric`, src/app.py:563, and
`_filter_year_cols_with_data`, src/app.py:571) -/

/-- Numeric value of a digit string. -/
def digitsVal (cs : List Char) : Nat := ofDigitsRev (cs.reverse.map charVal)

/-- Unsigned decimal numeral parse: digits with an optional fractional
part.  Any other character — a thousands-separator comma included — makes
the cell unparsable. -/
def decimalVal (cs : List Char) : Option ℚ :=
  match cs.dropWhile Char.isDigit with
  | [] => if cs = [] then none else some ((digitsVal cs : Nat) : ℚ)
  | '.' :: frac =>
    if frac.all Char.isDigit ∧ (cs.takeWhile Char.isDigit ≠ [] ∨ frac ≠ []) then
      some ((digitsVal (cs.takeWhile Char.isDigit) : Nat) +
        (digitsVal frac : Nat) / (10 : ℚ) ^ frac.length)
    else none
  | _ => none

/-- Model of `pd.to_numeric(cell, errors="coerce")` on one string cell
(src/app.py:567): surrounding whitespace and an optional sign are
tolerated, then a plain decimal numeral is required; anything else coerces
to missing.  (Exponents and infinities, which the pandas parser would also
accept, never occur in the valuation cells and are not modelled.) -/
def to_numeric_cell (cs : List Char) : Option ℚ :=
  match trimChars cs with
  | '-' :: rest => (decimalVal rest).map Neg.neg
  | '+' :: rest => decimalVal rest
  | t => decimalVal t

/-- Definition following the words of the specification for C8: strip
whitespace and thousands-separator characters, then attempt the numeric
parse. -/
def coerce_cell_spec (cs : List Char) : Option ℚ :=
  to_numeric_cell (cs.filter (fun c => !(c == ',' || c.isWhitespace)))

/-- Raw row before valuation coercion: identifying key plus the year cells
as strings. -/
structure RawRow where
  zone : String
  complexName : String
  dong : Int
  ho : Int
  cells : Nat → List Char

/-- Model of `_coerce_numeric(df, year_cols)` (src/app.py:563-568): apply
the cell parse to every year cell of every row. -/
def coerce_numeric (rows : List RawRow) : List Row :=
  rows.map (fun r => ⟨r.zone, r.complexName, r.dong, r.ho, fun y => to_numeric_cell (r.cells y)⟩)

/-- Model of `_filter_year_cols_with_data(df, year_cols)` (src/app.py:571-577):
keep the year columns whose non-missing count is positive. -/
def filter_year_cols_with_data (rows : List Row) (yearCols : List Nat) : List Nat :=
  yearCols.filter (fun y => 0 < rows.countP (fun r => (r.vals y).isSome))

/-- C8 as stated is false on the code: `pd.to_numeric` does not strip
thousands separators, so the cell "1,234" coerces to missing rather than
parsing as 1234. -/
theorem coercion_claim_cex :
    to_numeric_cell ['1', ',', '2', '3', '4'] = none ∧
    coerce_cell_spec ['1', ',', '2', '3', '4'] = some 1234 ∧
    ¬ (∀ cs : List Char, to_numeric_cell cs = coerce_cell_spec cs) := by
  refine ⟨by with_unfolding_all rfl, by with_unfolding_all rfl, ?_⟩
  intro h
  have h2 := h ['1', ',', '2', '3', '4']
  have h3 : to_numeric_cell ['1', ',', '2', '3', '4'] = none := by with_unfolding_all rfl
  have h4 : coerce_cell_spec ['1', ',', '2', '3', '4'] = some 1234 := by with_unfolding_all rfl
  rw [h3, h4] at h2
  exact Option.noConfusion h2

theorem trimChars_cons_space (cs : List Char) : trimChars (' ' :: cs) = trimChars cs := by
  unfold trimChars
  rw [List.dropWhile_cons, if_pos (by decide)]

/-- C8 amended: valuation coercion attempts a numeric parse of each cell
that tolerates surrounding whitespace but does not strip thousands
separators — a comma-grouped numeral coerces to missing; unparsable or
empty cells map to missing, never to zero, and a literal zero cell parses
to the value zero, distinct from missing; the table-level coercion applies
this cell parse to every year cell of every row; and afterwards exactly
the year columns with at least one non-missing value are kept. -/
theorem coercion_amended :
    (∀ cs : List Char, to_numeric_cell (' ' :: cs) = to_numeric_cell cs) ∧
    to_numeric_cell [' ', '1', '2', ' '] = some 12 ∧
    to_numeric_cell ['1', ',', '2', '3', '4'] = none ∧
    to_numeric_cell ['0'] = some 0 ∧
    to_numeric_cell [] = none ∧
    (∀ (rows : List RawRow) (i y : Nat),
      ((coerce_numeric rows)[i]?).map (fun r => r.vals y) =
        (rows[i]?).map (fun r => to_numeric_cell (r.cells y))) ∧
    (∀ (rows : List Row) (yearCols : List Nat) (y : Nat),
      y ∈ filter_year_cols_with_data rows yearCols ↔
        y ∈ yearCols ∧ ∃ r ∈ rows, (r.vals y).isSome = true) := by
  refine ⟨?_, by with_unfolding_all rfl, by with_unfolding_all rfl, by with_unfolding_all rfl,
    by with_unfolding_all rfl, ?_, ?_⟩
  · intro cs
    unfold to_numeric_cell
    rw [trimChars_cons_space]
  · intro rows i y
    simp only [coerce_numeric, List.getElem?_map, Option.map_map]
    rcases rows[i]? with _ | r <;> rfl
  · intro rows yearCols y
    simp [filter_year_cols_with_data, List.mem_filter, List.countP_pos_iff]

end Apgujeong
